import Mathlib

/-!
Verification of the Game of Life core (three simulation engines over a sparse
alive-set of 64-bit signed coordinates).

The C++ sources are shallowly embedded: `int64_t` values are modelled as `Int`
with the explicit boundary constants `int64Min`/`int64Max`; the alive-set
(`CellSet`) is a `Finset (Int × Int)`; each engine's `tick` becomes a pure
function `Finset Cell → Finset Cell`.  Fallible operations
(`parse_engine_type`, `GameOfLife::run`) return `Except`/flagged results.
-/

namespace Life

/-- A cell coordinate: the pair of 64-bit signed integers (x, y) of `struct Cell`. -/
abbrev Cell := Int × Int

/-- Smallest representable `int64_t` value. -/
def int64Min : Int := -(2 ^ 63)

/-- Largest representable `int64_t` value. -/
def int64Max : Int := 2 ^ 63 - 1

/-- A value representable in `int64_t`. -/
def inInt64 (v : Int) : Prop := int64Min ≤ v ∧ v ≤ int64Max

instance (v : Int) : Decidable (inInt64 v) := by
  unfold inInt64; infer_instance

/-- `GameOfLife::would_overflow`: true iff x or y is at the extreme
representable boundary in either dimension. -/
def wouldOverflow (x y : Int) : Bool :=
  x == int64Min || x == int64Max || y == int64Min || y == int64Max

/-- `GameOfLife::get_neighbors`: the 8 neighbouring coordinates, in source
order (row above, sides, row below).  The two counting engines emit exactly
these 8 coordinates per non-overflow-risk alive cell, in this order. -/
def neighborList (x y : Int) : List Cell :=
  [(x - 1, y - 1), (x, y - 1), (x + 1, y - 1),
   (x - 1, y), (x + 1, y),
   (x - 1, y + 1), (x, y + 1), (x + 1, y + 1)]

/-- The alive cells that participate as neighbour-count sources: the loop in
both counting engines skips cells with `would_overflow`. -/
def sources (S : Finset Cell) : Finset Cell :=
  S.filter (fun c => wouldOverflow c.1 c.2 = false)

/-- The value accumulated for coordinate `c` in `neighbor_count_buffer_` of
`HashtableEngine::tick`: one increment per non-overflow-risk alive cell that
has `c` among its 8 neighbours. -/
def nbrCnt (S : Finset Cell) (c : Cell) : Nat :=
  ((sources S).filter (fun a => c ∈ neighborList a.1 a.2)).card

/-- The key set of `neighbor_count_buffer_` after the accumulation scan:
every coordinate that received at least one increment. -/
def candidates (S : Finset Cell) : Finset Cell :=
  (sources S).biUnion (fun a => (neighborList a.1 a.2).toFinset)

/-- `HashtableEngine::tick`: scan the count map and keep a coordinate iff its
count is 3, or its count is 2 and it is currently alive. -/
def hashtableTick (S : Finset Cell) : Finset Cell :=
  (candidates S).filter (fun c => nbrCnt S c = 3 ∨ (nbrCnt S c = 2 ∧ c ∈ S))

/-- Chebyshev distance between two cells (used to phrase the spec's
"8 Chebyshev-distance-1 coordinates"). -/
def chebDist (a b : Cell) : Nat :=
  max (a.1 - b.1).natAbs (a.2 - b.2).natAbs

/-- The alive neighbours of `c` that are allowed to contribute counts:
non-overflow-risk cells of `S` at Chebyshev distance exactly 1 from `c`. -/
def aliveNbrs (S : Finset Cell) (c : Cell) : Finset Cell :=
  S.filter (fun a => wouldOverflow a.1 a.2 = false ∧ chebDist a c = 1)

lemma mem_neighborList (a c : Cell) :
    c ∈ neighborList a.1 a.2 ↔ chebDist a c = 1 := by
  rcases a with ⟨ax, ay⟩
  rcases c with ⟨cx, cy⟩
  simp only [neighborList, chebDist, List.mem_cons, List.mem_singleton,
    List.not_mem_nil, or_false, Prod.mk.injEq]
  omega

lemma nbrCnt_eq_card_aliveNbrs (S : Finset Cell) (c : Cell) :
    nbrCnt S c = (aliveNbrs S c).card := by
  unfold nbrCnt aliveNbrs sources
  rw [Finset.filter_filter]
  congr 1
  apply Finset.filter_congr
  intro a _
  simp [mem_neighborList]

lemma mem_candidates (S : Finset Cell) (c : Cell) :
    c ∈ candidates S ↔ ∃ a ∈ sources S, c ∈ neighborList a.1 a.2 := by
  simp [candidates]

lemma mem_candidates_of_nbrCnt_pos (S : Finset Cell) (c : Cell)
    (h : 0 < nbrCnt S c) : c ∈ candidates S := by
  rw [mem_candidates]
  obtain ⟨a, ha⟩ := Finset.card_pos.mp h
  rw [Finset.mem_filter] at ha
  exact ⟨a, ha.1, ha.2⟩

/-- Membership characterization of `HashtableEngine::tick`. -/
lemma mem_hashtableTick (S : Finset Cell) (c : Cell) :
    c ∈ hashtableTick S ↔
      ((aliveNbrs S c).card = 3 ∨ ((aliveNbrs S c).card = 2 ∧ c ∈ S)) := by
  rw [hashtableTick, Finset.mem_filter, ← nbrCnt_eq_card_aliveNbrs]
  constructor
  · rintro ⟨-, h⟩; exact h
  · intro h
    refine ⟨mem_candidates_of_nbrCnt_pos S c ?_, h⟩
    rcases h with h | ⟨h, -⟩ <;> omega

/-! ### SortedVectorEngine -/

/-- The strict comparator `cell_less` of `SortedVectorEngine` induces this
total order (x, then y); `std::sort` with `cell_less` produces exactly the
list sorted under it. -/
def cellLe (a b : Cell) : Prop := a.1 < b.1 ∨ (a.1 = b.1 ∧ a.2 ≤ b.2)

instance : DecidableRel cellLe := fun a b => by
  unfold cellLe; infer_instance

instance : IsTrans Cell cellLe :=
  ⟨by intro a b c hab hbc; unfold cellLe at *; omega⟩

instance : IsAntisymm Cell cellLe :=
  ⟨by
    intro a b hab hba
    unfold cellLe at *
    rcases a with ⟨ax, ay⟩; rcases b with ⟨bx, by'⟩
    simp only [Prod.mk.injEq]
    omega⟩

instance : IsTotal Cell cellLe :=
  ⟨by intro a b; unfold cellLe; omega⟩

/-- Sorting a list of cells; `std::sort(..., cell_less)` produces the unique
`cellLe`-sorted permutation of its input, modelled by insertion sort. -/
def sortCells (l : List Cell) : List Cell := List.insertionSort cellLe l

lemma sortCells_eq_of_perm {l₁ l₂ : List Cell} (h : l₁.Perm l₂) :
    sortCells l₁ = sortCells l₂ :=
  List.eq_of_perm_of_sorted
    (((List.perm_insertionSort cellLe l₁).trans h).trans
      (List.perm_insertionSort cellLe l₂).symm)
    (List.sorted_insertionSort cellLe l₁)
    (List.sorted_insertionSort cellLe l₂)

/-- Step 1 of `SortedVectorEngine::tick`: copy the alive set into a vector
sorted by `cell_less`.  The hash-set iteration order is immaterial: sorting
any enumeration of the set yields the same list. -/
def sortMS (s : Multiset Cell) : List Cell :=
  Quot.liftOn s (fun l => sortCells l) (fun _ _ h => sortCells_eq_of_perm h)

lemma sortMS_coe (l : List Cell) : sortMS (↑l) = sortCells l := rfl

lemma sortMS_perm (s : Multiset Cell) : (sortMS s : Multiset Cell) = s := by
  induction s using Quotient.inductionOn with
  | h l => exact Quot.sound (List.perm_insertionSort cellLe l)

/-- Step 2 of `SortedVectorEngine::tick`: emit the 8 neighbour coordinates of
every non-overflow-risk alive cell into a flat candidate sequence. -/
def candidateList (alive : List Cell) : List Cell :=
  (alive.filter (fun c => wouldOverflow c.1 c.2 = false)).flatMap
    (fun c => neighborList c.1 c.2)

/-- Helper for run collapsing: prepend one element to an already collapsed
tail, merging it into the first run when the keys agree. -/
def pushRun (c : Cell) : List (Cell × Nat) → List (Cell × Nat)
  | [] => [(c, 1)]
  | (d, n) :: t => if c = d then (c, n + 1) :: t else (c, 1) :: (d, n) :: t

/-- Step 4 of `SortedVectorEngine::tick`: walk the sorted candidate sequence
collapsing runs of equal coordinates into (coordinate, run length) pairs. -/
def collectRuns : List Cell → List (Cell × Nat)
  | [] => []
  | c :: rest => pushRun c (collectRuns rest)

/-- Step 5 of `SortedVectorEngine::tick`: a run of length 3 is alive next
generation; a run of length 2 is alive iff the coordinate is currently alive
(the binary search over the sorted alive vector decides membership). -/
def applyRules (alive : List Cell) : List (Cell × Nat) → Finset Cell
  | [] => ∅
  | (c, n) :: rest =>
    if n = 3 ∨ (n = 2 ∧ c ∈ alive) then insert c (applyRules alive rest)
    else applyRules alive rest

/-- `SortedVectorEngine::tick`. -/
def sortedTick (S : Finset Cell) : Finset Cell :=
  let alive := sortMS S.val
  applyRules alive (collectRuns (sortCells (candidateList alive)))

lemma collectRuns_flatMap (l : List Cell) :
    (collectRuns l).flatMap (fun p => List.replicate p.2 p.1) = l := by
  induction l with
  | nil => rfl
  | cons c rest ih =>
    simp only [collectRuns]
    rcases hr : collectRuns rest with _ | ⟨⟨d, n⟩, t⟩
    · rw [hr] at ih
      simp only [pushRun]
      simp at ih
      simp [ih]
    · rw [hr] at ih
      simp only [pushRun]
      by_cases hcd : c = d
      · subst hcd
        rw [if_pos rfl]
        simp only [List.flatMap_cons, List.replicate_succ] at *
        simp [ih]
      · rw [if_neg hcd]
        simp only [List.flatMap_cons, List.replicate] at *
        simp [ih]

lemma collectRuns_pos {l : List Cell} {p : Cell × Nat}
    (hp : p ∈ collectRuns l) : 1 ≤ p.2 := by
  induction l generalizing p with
  | nil => simp [collectRuns] at hp
  | cons c rest ih =>
    simp only [collectRuns] at hp
    rcases hr : collectRuns rest with _ | ⟨⟨d, n⟩, t⟩ <;> rw [hr] at hp <;>
      simp only [pushRun] at hp
    · simp at hp; subst hp; simp
    · by_cases hcd : c = d
      · rw [if_pos hcd] at hp
        rcases List.mem_cons.mp hp with h | h
        · subst h; simp
        · exact ih (by rw [hr]; exact List.mem_cons_of_mem _ h)
      · rw [if_neg hcd] at hp
        rcases List.mem_cons.mp hp with h | h
        · subst h; simp
        · exact ih (by rw [hr]; exact h)

/-- First run key is the head of the list. -/
lemma collectRuns_head (l : List Cell) :
    (collectRuns l).head?.map Prod.fst = l.head? := by
  cases l with
  | nil => rfl
  | cons c rest =>
    simp only [collectRuns]
    rcases collectRuns rest with _ | ⟨⟨d, n⟩, t⟩
    · rfl
    · simp only [pushRun]
      by_cases hcd : c = d <;> simp [hcd]

/-- The strict order on run keys. -/
def cellLt (a b : Cell) : Prop := cellLe a b ∧ a ≠ b

lemma cellLt_trans {a b c : Cell} (h₁ : cellLt a b) (h₂ : cellLt b c) :
    cellLt a c := by
  rcases a with ⟨ax, ay⟩; rcases b with ⟨bx, by'⟩; rcases c with ⟨cx, cy⟩
  rcases h₁ with ⟨h₁le, h₁ne⟩
  rcases h₂ with ⟨h₂le, h₂ne⟩
  simp only [cellLe] at h₁le h₂le
  simp only [ne_eq, Prod.mk.injEq, not_and] at h₁ne h₂ne
  constructor
  · simp only [cellLe]
    omega
  · simp only [ne_eq, Prod.mk.injEq, not_and]
    omega

/-- On a `cellLe`-sorted list, the run keys are strictly increasing. -/
lemma collectRuns_keys_sorted {l : List Cell} (hs : l.Sorted cellLe) :
    (collectRuns l).Sorted (fun p q => cellLt p.1 q.1) := by
  induction l with
  | nil => simp [collectRuns]
  | cons c rest ih =>
    rw [List.sorted_cons] at hs
    have iht := ih hs.2
    simp only [collectRuns]
    rcases hr : collectRuns rest with _ | ⟨⟨d, n⟩, t⟩
    · simp [pushRun]
    · rw [hr] at iht
      simp only [pushRun]
      have hdhead : rest.head? = some d := by
        have := collectRuns_head rest
        rw [hr] at this
        simpa using this.symm
      have hcd_le : cellLe c d := by
        apply hs.1
        cases rest with
        | nil => simp at hdhead
        | cons r rs => simp at hdhead; simp [hdhead]
      by_cases hcd : c = d
      · rw [if_pos hcd]
        subst hcd
        have iht' := List.sorted_cons.mp iht
        rw [List.sorted_cons]
        exact ⟨fun b hb => iht'.1 b hb, iht'.2⟩
      · rw [if_neg hcd]
        rw [List.sorted_cons]
        refine ⟨?_, iht⟩
        intro q hq
        have iht' := List.sorted_cons.mp iht
        rcases List.mem_cons.mp hq with h | h
        · subst h; exact ⟨hcd_le, hcd⟩
        · exact cellLt_trans ⟨hcd_le, hcd⟩ (iht'.1 q h)

/-- With pairwise-distinct run keys, the run holding key `c` carries the whole
multiplicity of `c` in the flattened list. -/
lemma sum_replicate_count {runs : List (Cell × Nat)} {c : Cell} {n : Nat}
    (hnd : (runs.map Prod.fst).Nodup) (hmem : (c, n) ∈ runs) :
    (runs.map fun p => (List.replicate p.2 p.1).count c).sum = n := by
  induction runs with
  | nil => simp at hmem
  | cons p rest ih =>
    rw [List.map_cons, List.nodup_cons] at hnd
    rw [List.map_cons, List.sum_cons]
    rcases List.mem_cons.mp hmem with he | hm
    · have hp1 : p.1 = c := by rw [← he]
      have hp2 : p.2 = n := by rw [← he]
      have hrest : (rest.map fun q => (List.replicate q.2 q.1).count c).sum = 0 := by
        apply List.sum_eq_zero
        intro x hx
        rw [List.mem_map] at hx
        obtain ⟨q, hq, rfl⟩ := hx
        apply List.count_eq_zero_of_not_mem
        rw [List.mem_replicate]
        rintro ⟨-, rfl⟩
        exact hnd.1 (hp1 ▸ List.mem_map_of_mem Prod.fst hq)
      rw [hrest, hp1, hp2]
      simp
    · have hpc : p.1 ≠ c := by
        intro hpc
        exact hnd.1 (hpc ▸ List.mem_map_of_mem Prod.fst hm)
      have hhead : (List.replicate p.2 p.1).count c = 0 := by
        apply List.count_eq_zero_of_not_mem
        rw [List.mem_replicate]
        rintro ⟨-, rfl⟩
        exact hpc rfl
      rw [hhead, ih hnd.2 hm]
      omega

/-- On a sorted list, every run records the exact multiplicity of its key. -/
lemma collectRuns_count {l : List Cell} (hs : l.Sorted cellLe)
    {c : Cell} {n : Nat} (hmem : (c, n) ∈ collectRuns l) :
    c ∈ l ∧ n = l.count c := by
  have hkeys := collectRuns_keys_sorted hs
  have hflat := collectRuns_flatMap l
  have hc_mem : c ∈ l := by
    rw [← hflat, List.mem_flatMap]
    refine ⟨(c, n), hmem, ?_⟩
    have hpos : 1 ≤ n := collectRuns_pos hmem
    simp [List.mem_replicate]
    omega
  refine ⟨hc_mem, ?_⟩
  have hnodup : ((collectRuns l).map Prod.fst).Nodup := by
    have hmap : ((collectRuns l).map Prod.fst).Pairwise cellLt :=
      hkeys.map Prod.fst (fun a b h => h)
    exact hmap.imp (fun h => h.2)
  have hcount : l.count c =
      ((collectRuns l).map fun p => (List.replicate p.2 p.1).count c).sum := by
    conv_lhs => rw [← hflat]
    rw [List.count_flatMap]
    rfl
  rw [hcount, sum_replicate_count hnodup hmem]

/-- Every element of the list owns a run. -/
lemma collectRuns_complete {l : List Cell} {c : Cell} (hc : c ∈ l) :
    ∃ n, (c, n) ∈ collectRuns l := by
  have hflat := collectRuns_flatMap l
  rw [← hflat, List.mem_flatMap] at hc
  obtain ⟨⟨pc, pn⟩, hp, hcp⟩ := hc
  rw [List.mem_replicate] at hcp
  rcases hcp with ⟨-, rfl⟩
  exact ⟨pn, hp⟩

lemma mem_applyRules {alive : List Cell} {runs : List (Cell × Nat)} {c : Cell} :
    c ∈ applyRules alive runs ↔
      ∃ n, (c, n) ∈ runs ∧ (n = 3 ∨ (n = 2 ∧ c ∈ alive)) := by
  induction runs with
  | nil => simp [applyRules]
  | cons p rest ih =>
    rcases p with ⟨d, m⟩
    simp only [applyRules]
    by_cases h : m = 3 ∨ (m = 2 ∧ d ∈ alive)
    · rw [if_pos h, Finset.mem_insert, ih]
      constructor
      · rintro (rfl | ⟨n, hn, hr⟩)
        · exact ⟨m, List.mem_cons_self _ _, h⟩
        · exact ⟨n, List.mem_cons_of_mem _ hn, hr⟩
      · rintro ⟨n, hn, hr⟩
        rcases List.mem_cons.mp hn with he | hn'
        · left; exact (Prod.mk.injEq .. ▸ he).1
        · right; exact ⟨n, hn', hr⟩
    · rw [if_neg h, ih]
      constructor
      · rintro ⟨n, hn, hr⟩
        exact ⟨n, List.mem_cons_of_mem _ hn, hr⟩
      · rintro ⟨n, hn, hr⟩
        rcases List.mem_cons.mp hn with he | hn'
        · exfalso
          have : d = c ∧ m = n := by
            constructor <;> [exact ((Prod.mk.injEq ..).mp he.symm).1;
              exact ((Prod.mk.injEq ..).mp he.symm).2]
          rcases this with ⟨rfl, rfl⟩
          exact h hr
        · exact ⟨n, hn', hr⟩

lemma nodup_neighborList (x y : Int) : (neighborList x y).Nodup := by
  unfold neighborList
  norm_num [List.nodup_cons, Prod.ext_iff]
  omega

lemma count_eq_one_of_mem_nodup {l : List Cell} {c : Cell}
    (hn : l.Nodup) (h : c ∈ l) : l.count c = 1 := by
  induction l with
  | nil => simp at h
  | cons a t ih =>
    rw [List.nodup_cons] at hn
    rw [List.count_cons]
    rcases List.mem_cons.mp h with rfl | hm
    · rw [List.count_eq_zero_of_not_mem hn.1]
      simp
    · rw [ih hn.2 hm]
      have hca : ¬c = a := by rintro rfl; exact hn.1 hm
      simp [beq_iff_eq, hca, Ne.symm hca]

lemma count_neighborList (a c : Cell) :
    (neighborList a.1 a.2).count c =
      if c ∈ neighborList a.1 a.2 then 1 else 0 := by
  by_cases h : c ∈ neighborList a.1 a.2
  · rw [if_pos h]
    exact count_eq_one_of_mem_nodup (nodup_neighborList a.1 a.2) h
  · rw [if_neg h]
    exact List.count_eq_zero_of_not_mem h

lemma sum_map_count_eq_countP (l : List Cell) (c : Cell) :
    (l.map fun a => (neighborList a.1 a.2).count c).sum
      = l.countP (fun a => decide (c ∈ neighborList a.1 a.2)) := by
  induction l with
  | nil => rfl
  | cons a t ih =>
    rw [List.map_cons, List.sum_cons, List.countP_cons, ih, count_neighborList]
    by_cases h : c ∈ neighborList a.1 a.2
    · simp [h]
      omega
    · simp [h]

lemma count_candidateList (alive : List Cell) (c : Cell) :
    (candidateList alive).count c =
      (alive.filter (fun a => wouldOverflow a.1 a.2 = false)).countP
        (fun a => decide (c ∈ neighborList a.1 a.2)) := by
  unfold candidateList
  rw [List.count_flatMap]
  exact sum_map_count_eq_countP _ c

/-- The run length recorded for `c` in the sorted candidate walk equals the
neighbour count accumulated by the hashtable engine. -/
lemma count_sortedCands_eq (S : Finset Cell) (c : Cell) :
    (sortCells (candidateList (sortMS S.val))).count c = (aliveNbrs S c).card := by
  have hperm : (sortCells (candidateList (sortMS S.val))).count c
      = (candidateList (sortMS S.val)).count c :=
    (List.perm_insertionSort cellLe (candidateList (sortMS S.val))).countP_eq _
  rw [hperm, count_candidateList]
  have hlist : ((sortMS S.val).filter
        (fun a => wouldOverflow a.1 a.2 = false)).countP
        (fun a => decide (c ∈ neighborList a.1 a.2))
      = (sortMS S.val).countP
        (fun a => decide (c ∈ neighborList a.1 a.2)
            && decide (wouldOverflow a.1 a.2 = false)) := by
    rw [List.countP_filter]
  rw [hlist]
  have hpred : ∀ a, (decide (c ∈ neighborList a.1 a.2)
        && decide (wouldOverflow a.1 a.2 = false))
      = decide (wouldOverflow a.1 a.2 = false ∧ chebDist a c = 1) := by
    intro a
    rw [Bool.decide_and]
    rw [Bool.and_comm]
    congr 1
    exact decide_eq_decide.mpr (mem_neighborList a c)
  rw [List.countP_congr (fun a _ => by rw [hpred a])]
  have hms : ((sortMS S.val : Multiset Cell)).countP
        (fun a => wouldOverflow a.1 a.2 = false ∧ chebDist a c = 1)
      = S.val.countP (fun a => wouldOverflow a.1 a.2 = false ∧ chebDist a c = 1) := by
    rw [sortMS_perm]
  rw [Multiset.coe_countP] at hms
  rw [hms]
  unfold aliveNbrs
  rw [Finset.card_def, Finset.filter_val, ← Multiset.countP_eq_card_filter]

/-- Membership characterization of `SortedVectorEngine::tick`: identical to
the hashtable engine's rule. -/
lemma mem_sortedTick (S : Finset Cell) (c : Cell) :
    c ∈ sortedTick S ↔
      ((aliveNbrs S c).card = 3 ∨ ((aliveNbrs S c).card = 2 ∧ c ∈ S)) := by
  unfold sortedTick
  rw [mem_applyRules]
  have hsorted : (sortCells (candidateList (sortMS S.val))).Sorted cellLe :=
    List.sorted_insertionSort cellLe _
  have hmem_alive : ∀ d : Cell, d ∈ sortMS S.val ↔ d ∈ S := by
    intro d
    rw [← Multiset.mem_coe, sortMS_perm]
    exact Iff.rfl
  constructor
  · rintro ⟨n, hn, hr⟩
    obtain ⟨-, hcnt⟩ := collectRuns_count hsorted hn
    rw [count_sortedCands_eq] at hcnt
    subst hcnt
    rcases hr with h | ⟨h, hal⟩
    · left; omega
    · right
      exact ⟨by omega, (hmem_alive c).mp hal⟩
  · intro h
    have hpos : 0 < (sortCells (candidateList (sortMS S.val))).count c := by
      rw [count_sortedCands_eq]
      rcases h with h | ⟨h, -⟩ <;> omega
    obtain ⟨n, hn⟩ := collectRuns_complete (List.count_pos_iff.mp hpos)
    refine ⟨n, hn, ?_⟩
    obtain ⟨-, hcnt⟩ := collectRuns_count hsorted hn
    rw [count_sortedCands_eq] at hcnt
    subst hcnt
    rcases h with h | ⟨h, hS⟩
    · left; omega
    · right; exact ⟨by omega, (hmem_alive c).mpr hS⟩

/-- The two counting engines compute the same successor set on every input. -/
lemma sortedTick_eq_hashtableTick (S : Finset Cell) :
    sortedTick S = hashtableTick S := by
  ext c
  rw [mem_sortedTick, mem_hashtableTick]

/-! ### HashLifeEngine: quadtree nodes

`QuadNode` values are modelled as trees indexed by their `level` field; the
`NodePool` canonicalization shares structurally identical nodes but never
changes which tree value a node denotes, and the `step1_result` memo caches
the value of `slow_step`, so the functional model below computes the same
results as the pooled graph.  Node identity and the memo protocol themselves
are modelled separately (see the `Pool` section). -/

/-- A quadtree node of level `k`, covering a `2^k × 2^k` square.  Level-0
nodes are single cells; a level-`k+1` node has four level-`k` children
(NW, NE, SW, SE). -/
inductive QTree : Nat → Type
  | leaf (alive : Bool) : QTree 0
  | node {k : Nat} (nw ne sw se : QTree k) : QTree (k + 1)

/-- `QuadNode::population`: number of alive cells under the node. -/
def population : {k : Nat} → QTree k → Nat
  | _, .leaf b => cond b 1 0
  | _, .node a b c d => population a + population b + population c + population d

/-- NW child. -/
def QTree.nw : {k : Nat} → QTree (k + 1) → QTree k
  | _, .node a _ _ _ => a

/-- NE child. -/
def QTree.ne : {k : Nat} → QTree (k + 1) → QTree k
  | _, .node _ b _ _ => b

/-- SW child. -/
def QTree.sw : {k : Nat} → QTree (k + 1) → QTree k
  | _, .node _ _ c _ => c

/-- SE child. -/
def QTree.se : {k : Nat} → QTree (k + 1) → QTree k
  | _, .node _ _ _ d => d

/-- `NodePool::empty_node`: the all-dead node of a given level. -/
def emptyT : (k : Nat) → QTree k
  | 0 => .leaf false
  | k + 1 => .node (emptyT k) (emptyT k) (emptyT k) (emptyT k)

/-- The cell of the square at offset `(x, y)` from its NW corner
(x grows to the east, y to the south, exactly as
`HashLifeEngine::flatten` lays children out). -/
def reify : {k : Nat} → QTree k → Nat → Nat → Bool
  | 0, .leaf b, _, _ => b
  | k + 1, .node a b c d, x, y =>
    if x < 2 ^ k then
      if y < 2 ^ k then reify a x y else reify c x (y - 2 ^ k)
    else
      if y < 2 ^ k then reify b (x - 2 ^ k) y else reify d (x - 2 ^ k) (y - 2 ^ k)

/-- The transition rule as written in the `life_rule` lambda of
`HashLifeEngine::step_4x4`: alive next iff the 8-neighbour count is 3, or is
2 and the cell is alive (`count == 3 || (count == 2 && alive)`). -/
def lifeR (cnt : Nat) (alive : Bool) : Bool :=
  cnt == 3 || (cnt == 2 && alive)

/-- `HashLifeEngine::step_4x4`: read the 16 leaves of a level-2 node and
evaluate the transition rule directly for the inner 2×2. -/
def step4x4 (t : QTree 2) : QTree 1 :=
  let g00 := population t.nw.nw
  let g10 := population t.nw.ne
  let g20 := population t.ne.nw
  let g30 := population t.ne.ne
  let g01 := population t.nw.sw
  let g11 := population t.nw.se
  let g21 := population t.ne.sw
  let g31 := population t.ne.se
  let g02 := population t.sw.nw
  let g12 := population t.sw.ne
  let g22 := population t.se.nw
  let g32 := population t.se.ne
  let g03 := population t.sw.sw
  let g13 := population t.sw.se
  let g23 := population t.se.sw
  let g33 := population t.se.se
  QTree.node
    (.leaf (lifeR (g00 + g10 + g20 + g01 + g21 + g02 + g12 + g22) (g11 != 0)))
    (.leaf (lifeR (g10 + g20 + g30 + g11 + g31 + g12 + g22 + g32) (g21 != 0)))
    (.leaf (lifeR (g01 + g11 + g21 + g02 + g22 + g03 + g13 + g23) (g12 != 0)))
    (.leaf (lifeR (g11 + g21 + g31 + g12 + g32 + g13 + g23 + g33) (g22 != 0)))

/-- `HashLifeEngine::center`: the centered level-(k+1) sub-node of a
level-(k+2) node, by pure structural recombination. -/
def centerT {k : Nat} (t : QTree (k + 2)) : QTree (k + 1) :=
  QTree.node t.nw.se t.ne.sw t.sw.ne t.se.nw

/-- `HashLifeEngine::slow_step`: advance a level-(k+2) node exactly one
generation, producing its centered level-(k+1) square.  The memo check of the
source returns the cached value of this same function and is dropped; the
`population == 0` early-out and the level-2 base case are kept. -/
def slowStep : {k : Nat} → QTree (k + 2) → QTree (k + 1)
  | 0, t =>
    if population t = 0 then emptyT 1 else step4x4 t
  | k + 1, t =>
    if population t = 0 then emptyT (k + 2) else
    let n00 := t.nw
    let n01 := t.ne
    let n10 := t.sw
    let n11 := t.se
    let c01 := QTree.node n00.ne n01.nw n00.se n01.sw
    let c10 := QTree.node n00.sw n00.se n10.nw n10.ne
    let c11 := QTree.node n00.se n01.sw n10.ne n11.nw
    let c12 := QTree.node n01.sw n01.se n11.nw n11.ne
    let c21 := QTree.node n10.ne n11.nw n10.se n11.sw
    let r00 := centerT n00
    let r01 := centerT c01
    let r02 := centerT n01
    let r10 := centerT c10
    let r11 := centerT c11
    let r12 := centerT c12
    let r20 := centerT n10
    let r21 := centerT c21
    let r22 := centerT n11
    QTree.node
      (slowStep (QTree.node r00 r01 r10 r11))
      (slowStep (QTree.node r01 r02 r11 r12))
      (slowStep (QTree.node r10 r11 r20 r21))
      (slowStep (QTree.node r11 r12 r21 r22))

/-- The 8-neighbour count of the cell at `(cx, cy)` inside the square of a
node, read off the node's own cells (all uses keep `1 ≤ cx, cy`, so the
truncated subtractions below are exact). -/
def nbrCountT {k : Nat} (t : QTree k) (cx cy : Nat) : Nat :=
  (cond (reify t (cx - 1) (cy - 1)) 1 0) + (cond (reify t cx (cy - 1)) 1 0) +
    (cond (reify t (cx + 1) (cy - 1)) 1 0) +
    (cond (reify t (cx - 1) cy) 1 0) + (cond (reify t (cx + 1) cy) 1 0) +
    (cond (reify t (cx - 1) (cy + 1)) 1 0) + (cond (reify t cx (cy + 1)) 1 0) +
    (cond (reify t (cx + 1) (cy + 1)) 1 0)

/-- One application of the Life rule to the cell at `(cx, cy)` of a node's
square: the specification of what `slow_step` must compute per cell. -/
def ruleAt {k : Nat} (t : QTree k) (cx cy : Nat) : Bool :=
  lifeR (nbrCountT t cx cy) (reify t cx cy)

lemma population_node {k : Nat} (a b c d : QTree k) :
    population (QTree.node a b c d)
      = population a + population b + population c + population d := rfl

lemma reify_node {k : Nat} (t : QTree (k + 1)) (x y : Nat) :
    reify t x y =
      if x < 2 ^ k then
        if y < 2 ^ k then reify t.nw x y else reify t.sw x (y - 2 ^ k)
      else
        if y < 2 ^ k then reify t.ne (x - 2 ^ k) y
        else reify t.se (x - 2 ^ k) (y - 2 ^ k) := by
  cases t with
  | node a b c d => rfl

lemma reify_eq_false_of_population_zero :
    ∀ {k : Nat} (t : QTree k), population t = 0 → ∀ x y, reify t x y = false := by
  intro k
  induction k with
  | zero =>
    intro t h x y
    cases t with
    | leaf b => cases b <;> simp_all [population, reify]
  | succ k ih =>
    intro t h x y
    cases t with
    | node a b c d =>
      rw [population_node] at h
      rw [reify_node]
      have ha := ih a (by omega)
      have hb := ih b (by omega)
      have hc := ih c (by omega)
      have hd := ih d (by omega)
      split <;> split <;> simp [ha, hb, hc, hd, QTree.nw, QTree.ne, QTree.sw, QTree.se]

lemma population_emptyT (k : Nat) : population (emptyT k) = 0 := by
  induction k with
  | zero => rfl
  | succ k ih => simp [emptyT, population_node, ih]

lemma reify_emptyT (k : Nat) (x y : Nat) : reify (emptyT k) x y = false :=
  reify_eq_false_of_population_zero (emptyT k) (population_emptyT k) x y

/-- `u` denotes the `2^m`-square sub-region of `t` based at offset `(a, b)`:
every in-range cell of `u` agrees with the corresponding cell of `t`. -/
def IsSub {m n : Nat} (u : QTree m) (t : QTree n) (a b : Nat) : Prop :=
  ∀ x y, x < 2 ^ m → y < 2 ^ m → reify u x y = reify t (a + x) (b + y)

lemma isSub_nw {k : Nat} (t : QTree (k + 1)) : IsSub t.nw t 0 0 := by
  intro x y hx hy
  rw [reify_node t]
  simp [hx, hy]

lemma isSub_ne {k : Nat} (t : QTree (k + 1)) : IsSub t.ne t (2 ^ k) 0 := by
  intro x y hx hy
  rw [reify_node t]
  have h1 : ¬(2 ^ k + x < 2 ^ k) := by omega
  have h2 : 2 ^ k + x - 2 ^ k = x := by omega
  simp [h1, h2, hy]

lemma isSub_sw {k : Nat} (t : QTree (k + 1)) : IsSub t.sw t 0 (2 ^ k) := by
  intro x y hx hy
  rw [reify_node t]
  have h1 : ¬(2 ^ k + y < 2 ^ k) := by omega
  have h2 : 2 ^ k + y - 2 ^ k = y := by omega
  simp [h1, h2, hx]

lemma isSub_se {k : Nat} (t : QTree (k + 1)) : IsSub t.se t (2 ^ k) (2 ^ k) := by
  intro x y hx hy
  rw [reify_node t]
  have h1 : ¬(2 ^ k + x < 2 ^ k) := by omega
  have h2 : 2 ^ k + x - 2 ^ k = x := by omega
  have h3 : 2 ^ k + y - 2 ^ k = y := by omega
  simp [h1, h2, h3]

lemma isSub_trans {m n p : Nat} {u : QTree m} {v : QTree n} {t : QTree p}
    {a b c d : Nat} (h₁ : IsSub u v a b) (h₂ : IsSub v t c d)
    (hm : a + 2 ^ m ≤ 2 ^ n) (hn : b + 2 ^ m ≤ 2 ^ n) :
    IsSub u t (c + a) (d + b) := by
  intro x y hx hy
  rw [h₁ x y hx hy, h₂ (a + x) (b + y) (by omega) (by omega)]
  ring_nf

lemma isSub_node {m n : Nat} {u₁ u₂ u₃ u₄ : QTree m} {t : QTree n} {a b : Nat}
    (h₁ : IsSub u₁ t a b) (h₂ : IsSub u₂ t (a + 2 ^ m) b)
    (h₃ : IsSub u₃ t a (b + 2 ^ m)) (h₄ : IsSub u₄ t (a + 2 ^ m) (b + 2 ^ m)) :
    IsSub (QTree.node u₁ u₂ u₃ u₄) t a b := by
  intro x y hx hy
  rw [reify_node (QTree.node u₁ u₂ u₃ u₄)]
  simp only [QTree.nw, QTree.ne, QTree.sw, QTree.se]
  rw [pow_succ] at hx hy
  by_cases hxs : x < 2 ^ m
  · by_cases hys : y < 2 ^ m
    · rw [if_pos hxs, if_pos hys]
      exact h₁ x y hxs hys
    · rw [if_pos hxs, if_neg hys]
      rw [h₃ x (y - 2 ^ m) hxs (by omega)]
      have e : b + 2 ^ m + (y - 2 ^ m) = b + y := by omega
      rw [e]
  · by_cases hys : y < 2 ^ m
    · rw [if_neg hxs, if_pos hys]
      rw [h₂ (x - 2 ^ m) y (by omega) hys]
      have e : a + 2 ^ m + (x - 2 ^ m) = a + x := by omega
      rw [e]
    · rw [if_neg hxs, if_neg hys]
      rw [h₄ (x - 2 ^ m) (y - 2 ^ m) (by omega) (by omega)]
      have e₁ : a + 2 ^ m + (x - 2 ^ m) = a + x := by omega
      have e₂ : b + 2 ^ m + (y - 2 ^ m) = b + y := by omega
      rw [e₁, e₂]

lemma isSub_center {k : Nat} (t : QTree (k + 2)) :
    IsSub (centerT t) t (2 ^ k) (2 ^ k) := by
  have hpow : (2 : Nat) ^ (k + 1) = 2 ^ k + 2 ^ k := by rw [pow_succ]; omega
  have hc₁ : (0 : Nat) + 2 ^ k ≤ 2 ^ (k + 1) := by
    rw [hpow, Nat.zero_add]
    exact Nat.le_add_right _ _
  have hc₂ : 2 ^ k + 2 ^ k ≤ 2 ^ (k + 1) := by rw [hpow]
  apply isSub_node
  · have h := isSub_trans (isSub_se t.nw) (isSub_nw t) hc₂ hc₂
    simpa using h
  · have h := isSub_trans (isSub_sw t.ne) (isSub_ne t) hc₁ hc₂
    simpa [hpow] using h
  · have h := isSub_trans (isSub_ne t.sw) (isSub_sw t) hc₂ hc₁
    simpa [hpow] using h
  · have h := isSub_trans (isSub_nw t.se) (isSub_se t) hc₁ hc₁
    simpa [hpow] using h

/-- The Life rule commutes with restriction to a sub-square whose cell and
all 8 of its neighbours lie strictly inside the sub-square. -/
lemma isSub_congr {m n : Nat} {u : QTree m} {t : QTree n} {a b a2 b2 : Nat}
    (h : IsSub u t a b) (ha : a = a2) (hb : b = b2) : IsSub u t a2 b2 :=
  ha ▸ hb ▸ h

lemma ruleAt_isSub {m n : Nat} {u : QTree m} {t : QTree n} {a b : Nat}
    (h : IsSub u t a b) (cx cy : Nat) (hx0 : 1 ≤ cx) (hx1 : cx + 1 < 2 ^ m)
    (hy0 : 1 ≤ cy) (hy1 : cy + 1 < 2 ^ m) :
    ruleAt u cx cy = ruleAt t (a + cx) (b + cy) := by
  unfold ruleAt nbrCountT
  rw [h cx cy (by omega) (by omega)]
  rw [h (cx - 1) (cy - 1) (by omega) (by omega)]
  rw [h cx (cy - 1) (by omega) (by omega)]
  rw [h (cx + 1) (cy - 1) (by omega) (by omega)]
  rw [h (cx - 1) cy (by omega) (by omega)]
  rw [h (cx + 1) cy (by omega) (by omega)]
  rw [h (cx - 1) (cy + 1) (by omega) (by omega)]
  rw [h cx (cy + 1) (by omega) (by omega)]
  rw [h (cx + 1) (cy + 1) (by omega) (by omega)]
  have e₁ : a + cx - 1 = a + (cx - 1) := by omega
  have e₂ : b + cy - 1 = b + (cy - 1) := by omega
  have e₃ : a + cx + 1 = a + (cx + 1) := by omega
  have e₄ : b + cy + 1 = b + (cy + 1) := by omega
  rw [e₁, e₂, e₃, e₄]

/-- Correctness of the 9-subquadrant assembly of `slow_step`: if the nine
level-(k+1) regions sit at the expected offsets of `t` and recursive calls
are correct, the assembled node computes the Life rule on the center of `t`. -/
lemma assembly (k : Nat) (t : QTree (k + 3))
    (r00 r01 r02 r10 r11 r12 r20 r21 r22 : QTree (k + 1))
    (ih : ∀ (g : QTree (k + 2)) (x y : Nat), x < 2 ^ (k + 1) → y < 2 ^ (k + 1) →
      reify (slowStep g) x y = ruleAt g (2 ^ k + x) (2 ^ k + y))
    (h00 : IsSub r00 t (2 ^ k) (2 ^ k))
    (h01 : IsSub r01 t (2 ^ k + 2 ^ (k + 1)) (2 ^ k))
    (h02 : IsSub r02 t (2 ^ k + 2 ^ (k + 1) + 2 ^ (k + 1)) (2 ^ k))
    (h10 : IsSub r10 t (2 ^ k) (2 ^ k + 2 ^ (k + 1)))
    (h11 : IsSub r11 t (2 ^ k + 2 ^ (k + 1)) (2 ^ k + 2 ^ (k + 1)))
    (h12 : IsSub r12 t (2 ^ k + 2 ^ (k + 1) + 2 ^ (k + 1)) (2 ^ k + 2 ^ (k + 1)))
    (h20 : IsSub r20 t (2 ^ k) (2 ^ k + 2 ^ (k + 1) + 2 ^ (k + 1)))
    (h21 : IsSub r21 t (2 ^ k + 2 ^ (k + 1)) (2 ^ k + 2 ^ (k + 1) + 2 ^ (k + 1)))
    (h22 : IsSub r22 t (2 ^ k + 2 ^ (k + 1) + 2 ^ (k + 1))
      (2 ^ k + 2 ^ (k + 1) + 2 ^ (k + 1)))
    (x y : Nat) (hx : x < 2 ^ (k + 2)) (hy : y < 2 ^ (k + 2)) :
    reify (QTree.node (slowStep (QTree.node r00 r01 r10 r11))
        (slowStep (QTree.node r01 r02 r11 r12))
        (slowStep (QTree.node r10 r11 r20 r21))
        (slowStep (QTree.node r11 r12 r21 r22))) x y
      = ruleAt t (2 ^ (k + 1) + x) (2 ^ (k + 1) + y) := by
  have e1 : (2 : Nat) ^ (k + 1) = 2 ^ k + 2 ^ k := by rw [pow_succ]; omega
  have e2 : (2 : Nat) ^ (k + 2) = 2 ^ (k + 1) + 2 ^ (k + 1) := by
    rw [pow_succ]; omega
  have e3 : (2 : Nat) ^ (k + 3) = 2 ^ (k + 2) + 2 ^ (k + 2) := by
    rw [pow_succ]; omega
  have hpos : 0 < (2 : Nat) ^ k := Nat.pos_pow_of_pos k (by omega)
  have hg00 := isSub_node h00 h01 h10 h11
  have hg01 := isSub_node h01 h02 h11 h12
  have hg10 := isSub_node h10 h11 h20 h21
  have hg11 := isSub_node h11 h12 h21 h22
  rw [reify_node]
  simp only [QTree.nw, QTree.ne, QTree.sw, QTree.se]
  by_cases hxs : x < 2 ^ (k + 1)
  · by_cases hys : y < 2 ^ (k + 1)
    · rw [if_pos hxs, if_pos hys]
      rw [ih _ x y hxs hys]
      rw [ruleAt_isSub hg00 (2 ^ k + x) (2 ^ k + y) (by omega) (by omega)
        (by omega) (by omega)]
      have ex : 2 ^ k + (2 ^ k + x) = 2 ^ (k + 1) + x := by omega
      have ey : 2 ^ k + (2 ^ k + y) = 2 ^ (k + 1) + y := by omega
      rw [ex, ey]
    · rw [if_pos hxs, if_neg hys]
      rw [ih _ x (y - 2 ^ (k + 1)) hxs (by omega)]
      rw [ruleAt_isSub hg10 (2 ^ k + x) (2 ^ k + (y - 2 ^ (k + 1))) (by omega)
        (by omega) (by omega) (by omega)]
      have ex : 2 ^ k + (2 ^ k + x) = 2 ^ (k + 1) + x := by omega
      have ey : 2 ^ k + 2 ^ (k + 1) + (2 ^ k + (y - 2 ^ (k + 1)))
          = 2 ^ (k + 1) + y := by omega
      rw [ex, ey]
  · by_cases hys : y < 2 ^ (k + 1)
    · rw [if_neg hxs, if_pos hys]
      rw [ih _ (x - 2 ^ (k + 1)) y (by omega) hys]
      rw [ruleAt_isSub hg01 (2 ^ k + (x - 2 ^ (k + 1))) (2 ^ k + y)
        (by omega) (by omega) (by omega) (by omega)]
      have ex : 2 ^ k + 2 ^ (k + 1) + (2 ^ k + (x - 2 ^ (k + 1)))
          = 2 ^ (k + 1) + x := by omega
      have ey : 2 ^ k + (2 ^ k + y) = 2 ^ (k + 1) + y := by omega
      rw [ex, ey]
    · rw [if_neg hxs, if_neg hys]
      rw [ih _ (x - 2 ^ (k + 1)) (y - 2 ^ (k + 1)) (by omega) (by omega)]
      rw [ruleAt_isSub hg11 (2 ^ k + (x - 2 ^ (k + 1)))
        (2 ^ k + (y - 2 ^ (k + 1))) (by omega) (by omega) (by omega)
        (by omega)]
      have ex : 2 ^ k + 2 ^ (k + 1) + (2 ^ k + (x - 2 ^ (k + 1)))
          = 2 ^ (k + 1) + x := by omega
      have ey : 2 ^ k + 2 ^ (k + 1) + (2 ^ k + (y - 2 ^ (k + 1)))
          = 2 ^ (k + 1) + y := by omega
      rw [ex, ey]

lemma cond_pop_ne_zero (b : Bool) : ((cond b 1 0 : Nat) != 0) = b := by
  cases b <;> rfl

/-- `slow_step` correctness: for every level-(k+2) node, the result holds the
center `2^(k+1)` square advanced one generation under the Life rule. -/
lemma slowStep_correct : ∀ {k : Nat} (t : QTree (k + 2)) (x y : Nat),
    x < 2 ^ (k + 1) → y < 2 ^ (k + 1) →
    reify (slowStep t) x y = ruleAt t (2 ^ k + x) (2 ^ k + y) := by
  intro k
  induction k with
  | zero =>
    intro t x y hx hy
    by_cases hp : population t = 0
    · simp only [slowStep]
      rw [if_pos hp]
      simp [reify_emptyT, ruleAt, nbrCountT, lifeR,
        reify_eq_false_of_population_zero t hp]
    · simp only [slowStep]
      rw [if_neg hp]
      rcases t with _ | ⟨a, b, c, d⟩
      rcases a with _ | ⟨a1, a2, a3, a4⟩
      rcases b with _ | ⟨b1, b2, b3, b4⟩
      rcases c with _ | ⟨c1, c2, c3, c4⟩
      rcases d with _ | ⟨d1, d2, d3, d4⟩
      rcases a1 with ⟨va1⟩; rcases a2 with ⟨va2⟩
      rcases a3 with ⟨va3⟩; rcases a4 with ⟨va4⟩
      rcases b1 with ⟨vb1⟩; rcases b2 with ⟨vb2⟩
      rcases b3 with ⟨vb3⟩; rcases b4 with ⟨vb4⟩
      rcases c1 with ⟨vc1⟩; rcases c2 with ⟨vc2⟩
      rcases c3 with ⟨vc3⟩; rcases c4 with ⟨vc4⟩
      rcases d1 with ⟨vd1⟩; rcases d2 with ⟨vd2⟩
      rcases d3 with ⟨vd3⟩; rcases d4 with ⟨vd4⟩
      interval_cases x <;> interval_cases y <;>
        simp [step4x4, ruleAt, nbrCountT, reify, population, lifeR,
          QTree.nw, QTree.ne, QTree.sw, QTree.se, cond_pop_ne_zero]
  | succ k ih =>
    intro t x y hx hy
    by_cases hp : population t = 0
    · simp only [slowStep]
      rw [if_pos hp]
      simp [reify_emptyT, ruleAt, nbrCountT, lifeR,
        reify_eq_false_of_population_zero t hp]
    · have e1 : (2 : Nat) ^ (k + 1) = 2 ^ k + 2 ^ k := by rw [pow_succ]; omega
      have e2 : (2 : Nat) ^ (k + 2) = 2 ^ (k + 1) + 2 ^ (k + 1) := by
        rw [pow_succ]; omega
      have e3 : (2 : Nat) ^ (k + 3) = 2 ^ (k + 2) + 2 ^ (k + 2) := by
        rw [pow_succ]; omega
      have hnw := isSub_nw t
      have hne := isSub_ne t
      have hsw := isSub_sw t
      have hse := isSub_se t
      -- the five overlapping level-(k+2) combinations of `slow_step`
      have hc01 : IsSub (QTree.node t.nw.ne t.ne.nw t.nw.se t.ne.sw) t
          (2 ^ (k + 1)) 0 := by
        apply isSub_node
        · exact isSub_congr (isSub_trans (isSub_ne t.nw) hnw (by omega)
            (by omega)) (by omega) (by omega)
        · exact isSub_congr (isSub_trans (isSub_nw t.ne) hne (by omega)
            (by omega)) (by omega) (by omega)
        · exact isSub_congr (isSub_trans (isSub_se t.nw) hnw (by omega)
            (by omega)) (by omega) (by omega)
        · exact isSub_congr (isSub_trans (isSub_sw t.ne) hne (by omega)
            (by omega)) (by omega) (by omega)
      have hc10 : IsSub (QTree.node t.nw.sw t.nw.se t.sw.nw t.sw.ne) t
          0 (2 ^ (k + 1)) := by
        apply isSub_node
        · exact isSub_congr (isSub_trans (isSub_sw t.nw) hnw (by omega)
            (by omega)) (by omega) (by omega)
        · exact isSub_congr (isSub_trans (isSub_se t.nw) hnw (by omega)
            (by omega)) (by omega) (by omega)
        · exact isSub_congr (isSub_trans (isSub_nw t.sw) hsw (by omega)
            (by omega)) (by omega) (by omega)
        · exact isSub_congr (isSub_trans (isSub_ne t.sw) hsw (by omega)
            (by omega)) (by omega) (by omega)
      have hc11 : IsSub (QTree.node t.nw.se t.ne.sw t.sw.ne t.se.nw) t
          (2 ^ (k + 1)) (2 ^ (k + 1)) := by
        apply isSub_node
        · exact isSub_congr (isSub_trans (isSub_se t.nw) hnw (by omega)
            (by omega)) (by omega) (by omega)
        · exact isSub_congr (isSub_trans (isSub_sw t.ne) hne (by omega)
            (by omega)) (by omega) (by omega)
        · exact isSub_congr (isSub_trans (isSub_ne t.sw) hsw (by omega)
            (by omega)) (by omega) (by omega)
        · exact isSub_congr (isSub_trans (isSub_nw t.se) hse (by omega)
            (by omega)) (by omega) (by omega)
      have hc12 : IsSub (QTree.node t.ne.sw t.ne.se t.se.nw t.se.ne) t
          (2 ^ (k + 2)) (2 ^ (k + 1)) := by
        apply isSub_node
        · exact isSub_congr (isSub_trans (isSub_sw t.ne) hne (by omega)
            (by omega)) (by omega) (by omega)
        · exact isSub_congr (isSub_trans (isSub_se t.ne) hne (by omega)
            (by omega)) (by omega) (by omega)
        · exact isSub_congr (isSub_trans (isSub_nw t.se) hse (by omega)
            (by omega)) (by omega) (by omega)
        · exact isSub_congr (isSub_trans (isSub_ne t.se) hse (by omega)
            (by omega)) (by omega) (by omega)
      have hc21 : IsSub (QTree.node t.sw.ne t.se.nw t.sw.se t.se.sw) t
          (2 ^ (k + 1)) (2 ^ (k + 2)) := by
        apply isSub_node
        · exact isSub_congr (isSub_trans (isSub_ne t.sw) hsw (by omega)
            (by omega)) (by omega) (by omega)
        · exact isSub_congr (isSub_trans (isSub_nw t.se) hse (by omega)
            (by omega)) (by omega) (by omega)
        · exact isSub_congr (isSub_trans (isSub_se t.sw) hsw (by omega)
            (by omega)) (by omega) (by omega)
        · exact isSub_congr (isSub_trans (isSub_sw t.se) hse (by omega)
            (by omega)) (by omega) (by omega)
      -- the nine centered level-(k+1) regions
      have h00 : IsSub (centerT t.nw) t (2 ^ k) (2 ^ k) :=
        isSub_congr (isSub_trans (isSub_center t.nw) hnw (by omega) (by omega))
          (by omega) (by omega)
      have h01 : IsSub (centerT (QTree.node t.nw.ne t.ne.nw t.nw.se t.ne.sw)) t
          (2 ^ k + 2 ^ (k + 1)) (2 ^ k) :=
        isSub_congr (isSub_trans (isSub_center _) hc01 (by omega) (by omega))
          (by omega) (by omega)
      have h02 : IsSub (centerT t.ne) t
          (2 ^ k + 2 ^ (k + 1) + 2 ^ (k + 1)) (2 ^ k) :=
        isSub_congr (isSub_trans (isSub_center t.ne) hne (by omega) (by omega))
          (by omega) (by omega)
      have h10 : IsSub (centerT (QTree.node t.nw.sw t.nw.se t.sw.nw t.sw.ne)) t
          (2 ^ k) (2 ^ k + 2 ^ (k + 1)) :=
        isSub_congr (isSub_trans (isSub_center _) hc10 (by omega) (by omega))
          (by omega) (by omega)
      have h11 : IsSub (centerT (QTree.node t.nw.se t.ne.sw t.sw.ne t.se.nw)) t
          (2 ^ k + 2 ^ (k + 1)) (2 ^ k + 2 ^ (k + 1)) :=
        isSub_congr (isSub_trans (isSub_center _) hc11 (by omega) (by omega))
          (by omega) (by omega)
      have h12 : IsSub (centerT (QTree.node t.ne.sw t.ne.se t.se.nw t.se.ne)) t
          (2 ^ k + 2 ^ (k + 1) + 2 ^ (k + 1)) (2 ^ k + 2 ^ (k + 1)) :=
        isSub_congr (isSub_trans (isSub_center _) hc12 (by omega) (by omega))
          (by omega) (by omega)
      have h20 : IsSub (centerT t.sw) t
          (2 ^ k) (2 ^ k + 2 ^ (k + 1) + 2 ^ (k + 1)) :=
        isSub_congr (isSub_trans (isSub_center t.sw) hsw (by omega) (by omega))
          (by omega) (by omega)
      have h21 : IsSub (centerT (QTree.node t.sw.ne t.se.nw t.sw.se t.se.sw)) t
          (2 ^ k + 2 ^ (k + 1)) (2 ^ k + 2 ^ (k + 1) + 2 ^ (k + 1)) :=
        isSub_congr (isSub_trans (isSub_center _) hc21 (by omega) (by omega))
          (by omega) (by omega)
      have h22 : IsSub (centerT t.se) t
          (2 ^ k + 2 ^ (k + 1) + 2 ^ (k + 1))
          (2 ^ k + 2 ^ (k + 1) + 2 ^ (k + 1)) :=
        isSub_congr (isSub_trans (isSub_center t.se) hse (by omega) (by omega))
          (by omega) (by omega)
      simp only [slowStep]
      rw [if_neg hp]
      exact assembly k t _ _ _ _ _ _ _ _ _ ih h00 h01 h02 h10 h11 h12 h20 h21
        h22 x y hx hy

/-! ### HashLifeEngine: clustering, tree construction and the full tick -/

/-- The bucket index computation of `HashLifeEngine::tick`
(`CHUNK_SIZE = 64`); C++ `/` truncates toward zero, i.e. `Int.tdiv`. -/
def chunkCoord (v : Int) : Int :=
  if v ≥ 0 then v.tdiv 64 else (v - 64 + 1).tdiv 64

/-- The intermediate numerator `cell.x - CHUNK_SIZE + 1` computed by the
bucket indexing for negative coordinates. -/
def chunkNumer (v : Int) : Int := v - 64 + 1

/-- The chunk key of a cell. -/
def chunkOf (c : Cell) : Cell := (chunkCoord c.1, chunkCoord c.2)

/-- 8-adjacency of chunk keys (the `dx, dy ∈ [-1, 1]`, not both 0, probe of
the union-find merge loop). -/
def chunkAdj (a b : Cell) : Bool :=
  decide (a ≠ b) && decide ((a.1 - b.1).natAbs ≤ 1) &&
    decide ((a.2 - b.2).natAbs ≤ 1)

/-- One breadth expansion of a set of chunk keys inside the occupied set. -/
def growComp (occ : Finset Cell) (cur : Finset Cell) : Finset Cell :=
  cur ∪ occ.filter (fun k => ((cur.filter (fun c => chunkAdj c k)).Nonempty))

/-- The connected component of chunk `k` among the occupied chunks, under
8-adjacency: the partition computed by the source's union-find. -/
def componentOf (occ : Finset Cell) (k : Cell) : Finset Cell :=
  (growComp occ)^[occ.card] {k}

/-- The cluster containing cell `c`: all cells of `S` whose chunk lies in the
connected component of `c`'s chunk. -/
def clusterOf (S : Finset Cell) (c : Cell) : Finset Cell :=
  S.filter (fun d => chunkOf d ∈ componentOf (S.image chunkOf) (chunkOf c))

/-- `SortedCells::has_cell_in`: does any alive cell fall within
`[x, x+size) × [y, y+size)`? -/
def hasCellIn (S : Finset Cell) (x y size : Int) : Bool :=
  decide (∃ c ∈ S, x ≤ c.1 ∧ c.1 < x + size ∧ y ≤ c.2 ∧ c.2 < y + size)

/-- `HashLifeEngine::build_recursive`: top-down construction with the
canonical all-dead node for empty regions; level 0 reads
`SortedCells::contains`. -/
def buildRec (S : Finset Cell) (x y : Int) : (level : Nat) → QTree level
  | 0 =>
    if hasCellIn S x y 1 then .leaf (decide ((x, y) ∈ S)) else .leaf false
  | l + 1 =>
    if hasCellIn S x y (2 ^ (l + 1)) then
      QTree.node
        (buildRec S x y l)
        (buildRec S (x + 2 ^ l) y l)
        (buildRec S x (y + 2 ^ l) l)
        (buildRec S (x + 2 ^ l) (y + 2 ^ l) l)
    else emptyT (l + 1)

/-- `HashLifeEngine::expand`: wrap a node in an all-dead border so that it
becomes the center of a node one level up (the `ox`/`oy` adjustment is done
by the caller, `stepCluster`). -/
def expandT {k : Nat} (t : QTree (k + 1)) : QTree (k + 2) :=
  QTree.node
    (QTree.node (emptyT k) (emptyT k) (emptyT k) t.nw)
    (QTree.node (emptyT k) (emptyT k) t.ne (emptyT k))
    (QTree.node (emptyT k) t.sw (emptyT k) (emptyT k))
    (QTree.node t.se (emptyT k) (emptyT k) (emptyT k))

/-- `HashLifeEngine::flatten`: emit one coordinate per alive leaf, skipping
empty subtrees via the population counter. -/
def flattenT : {k : Nat} → QTree k → Int → Int → Finset Cell
  | 0, .leaf b, x, y => if b then {(x, y)} else ∅
  | k + 1, .node a b c d, x, y =>
    if population (QTree.node a b c d) = 0 then ∅
    else
      flattenT a x y ∪ flattenT b (x + 2 ^ k) y ∪
        flattenT c x (y + 2 ^ k) ∪ flattenT d (x + 2 ^ k) (y + 2 ^ k)

/-- Fuel-bounded loop body of `levelFor`. -/
def levelForGo (l : Nat) (fuel : Nat) (range : Int) : Nat :=
  match fuel with
  | 0 => l
  | fuel + 1 => if 2 ^ l < range then levelForGo (l + 1) fuel range else l

/-- The `while ((1 << level) < range)` search of `step_cluster`, starting at
level 1; 127 iterations always suffice for the ranges of any int64 input. -/
def levelFor (range : Int) : Nat :=
  levelForGo 1 127 range

/-- `HashLifeEngine::step_cluster`: bounding box, power-of-two cover,
build, two border expansions (one more if the initial level is 1), one
`slow_step`, flatten at the center offset. -/
def stepCluster (S : Finset Cell) : Finset Cell :=
  if hS : S.Nonempty then
    let minx := S.inf' hS (fun c => c.1)
    let maxx := S.sup' hS (fun c => c.1)
    let miny := S.inf' hS (fun c => c.2)
    let maxy := S.sup' hS (fun c => c.2)
    let rangeX := maxx - minx + 1
    let rangeY := maxy - miny + 1
    let range := max rangeX rangeY
    let ox := minx - (2 ^ levelFor range - rangeX).tdiv 2
    let oy := miny - (2 ^ levelFor range - rangeY).tdiv 2
    match levelFor range with
    | 0 => ∅
    | 1 =>
      let t4 := expandT (expandT (expandT (buildRec S ox oy 1)))
      flattenT (slowStep t4) (ox - 1 - 2 - 4 + 4) (oy - 1 - 2 - 4 + 4)
    | j + 2 =>
      let t := expandT (expandT (buildRec S ox oy (j + 2)))
      flattenT (slowStep t) (ox - 2 ^ (j + 1) - 2 ^ (j + 2) + 2 ^ (j + 2))
        (oy - 2 ^ (j + 1) - 2 ^ (j + 2) + 2 ^ (j + 2))
  else ∅

/-- `HashLifeEngine::tick`: group the alive cells into chunks, merge
8-adjacent chunks into clusters, step every cluster independently and take
the union of the results. -/
def hashLifeTick (S : Finset Cell) : Finset Cell :=
  if S = ∅ then ∅
  else S.biUnion (fun c => stepCluster (clusterOf S c))

/-! ### NodePool: canonicalization and memoization protocol

The arena of `NodePool` is modelled as explicit state: node records live in a
list (a node's identity is its index, standing for the C++ pointer) and the
canonicalization table is an association list keyed by the four child
identities, exactly the key of `canon_` (the children determine the level,
as `NodePool::make` asserts). -/

/-- One arena-resident `QuadNode` record. -/
structure PoolNode where
  level : Nat
  population : Int
  nw : Option Nat
  ne : Option Nat
  sw : Option Nat
  se : Option Nat
  step1 : Option Nat
deriving DecidableEq

/-- The `NodePool` state: arena plus canonicalization table. -/
structure Pool where
  nodes : List PoolNode
  canon : List ((Nat × Nat × Nat × Nat) × Nat)
deriving DecidableEq

/-- A level-0 leaf record (`dead_cell_` / `alive_cell_`). -/
def leafNode (alive : Bool) : PoolNode :=
  ⟨0, cond alive 1 0, none, none, none, none, none⟩

/-- The freshly constructed pool: the two leaf nodes, empty table. -/
def Pool.init : Pool := ⟨[leafNode false, leafNode true], []⟩

/-- Dereference a node identity. -/
def Pool.get (p : Pool) (i : Nat) : PoolNode :=
  p.nodes.getD i (leafNode false)

/-- `NodePool::make`: look the structural key up in `canon_`; return the
existing node if present, otherwise allocate a composite node whose level is
the children's level plus one and whose population is the sum of the four
children's populations, and record it in the table. -/
def Pool.make (p : Pool) (nw ne sw se : Nat) : Pool × Nat :=
  match p.canon.lookup (nw, ne, sw, se) with
  | some id => (p, id)
  | none =>
    let nd : PoolNode :=
      ⟨(p.get nw).level + 1,
        (p.get nw).population + (p.get ne).population
          + (p.get sw).population + (p.get se).population,
        some nw, some ne, some sw, some se, none⟩
    (⟨p.nodes ++ [nd], ((nw, ne, sw, se), p.nodes.length) :: p.canon⟩,
      p.nodes.length)

/-- Write a node's `step1_result` memo field. -/
def Pool.writeStep (p : Pool) (i r : Nat) : Pool :=
  ⟨p.nodes.set i
      ⟨(p.get i).level, (p.get i).population, (p.get i).nw, (p.get i).ne,
        (p.get i).sw, (p.get i).se, some r⟩,
    p.canon⟩

/-- The memo protocol of `slow_step`: `if (node->step1_result) return it`,
otherwise compute once and store the result. -/
def Pool.memoStep (p : Pool) (i : Nat) (compute : Pool → Pool × Nat) :
    Pool × Nat :=
  match (p.get i).step1 with
  | some r => (p, r)
  | none =>
    let pr := compute p
    (pr.1.writeStep i pr.2, pr.2)

lemma getD_concat (l : List PoolNode) (x d : PoolNode) :
    (l ++ [x]).getD l.length d = x := by
  simp

/-! ### Engine selection (`parse_engine_type`) and the orchestrator loop -/

/-- `enum class EngineType`. -/
inductive EngineType
  | Hashtable
  | Sorted
  | Hashlife
deriving DecidableEq

/-- `std::tolower` in the default locale: lower-case the ASCII letters. -/
def lowerChar (c : Char) : Char :=
  if 'A' ≤ c ∧ c ≤ 'Z' then Char.ofNat (c.toNat + 32) else c

/-- The `std::transform(..., ::tolower)` pass of `parse_engine_type`. -/
def toLowerStr (s : List Char) : List Char := s.map lowerChar

/-- `parse_engine_type`: case-insensitively accept exactly "hashtable",
"sorted" and "hashlife"; every other name throws `std::invalid_argument`
(the error payload here carries the rejected name; the message text of the
exception is not modelled). -/
def parseEngineType (s : List Char) : Except (List Char) EngineType :=
  if toLowerStr s = "hashtable".toList then .ok .Hashtable
  else if toLowerStr s = "sorted".toList then .ok .Sorted
  else if toLowerStr s = "hashlife".toList then .ok .Hashlife
  else .error s

/-- Did the parse succeed (no exception)? -/
def isOkE {α β : Type} (e : Except α β) : Bool :=
  match e with
  | .ok _ => true
  | .error _ => false

/-- `GameOfLife::run`: reject negative iteration counts before touching the
state (the thrown `std::invalid_argument` is the `true` flag), otherwise
apply the engine's tick exactly `iterations` times.  The engine dispatch of
`GameOfLife::tick` is the function parameter. -/
def runGol (tickF : Finset Cell → Finset Cell) (iterations : Int)
    (s : Finset Cell) : Finset Cell × Bool :=
  if iterations < 0 then (s, true) else (tickF^[iterations.toNat] s, false)

/-! ### Concrete inputs used by the claims -/

/-- The blinker of the spec's test catalogue. -/
def blinkerH : Finset Cell := {((0 : Int), (0 : Int)), ((1 : Int), (0 : Int)), ((2 : Int), (0 : Int))}

/-- The blinker after one generation. -/
def blinkerV : Finset Cell := {((1 : Int), (-1 : Int)), ((1 : Int), (0 : Int)), ((1 : Int), (1 : Int))}

/-- A vertical blinker sitting on the x = INT64_MAX boundary column. -/
def boundaryBlinker : Finset Cell :=
  {(int64Max, (-1 : Int)), (int64Max, (0 : Int)), (int64Max, (1 : Int))}

/-- A 2×2 block whose right column sits on the x = INT64_MAX boundary. -/
def boundaryBlock : Finset Cell :=
  {(int64Max - 1, (0 : Int)), (int64Max, (0 : Int)),
    (int64Max - 1, (1 : Int)), (int64Max, (1 : Int))}

/-- A single cell at the INT64_MIN corner of the x axis. -/
def boundaryMinCell : Finset Cell := {(int64Min, (0 : Int))}

/-- A single isolated cell on the x = INT64_MAX boundary. -/
def boundaryMaxCell : Finset Cell := {(int64Max, (0 : Int))}

/-! ### The claims -/

/-- C1: for every AliveSet `S`, the HashtableEngine/CountingEngine tick
returns exactly the set of cells `c` with exactly 3 alive neighbours in `S`,
or exactly 2 alive neighbours and `c ∈ S`, the neighbour counts being
accumulated only from the non-overflow-risk cells of `S`. -/
theorem claim_C1_counting_tick_exact (S : Finset Cell) (c : Cell) :
    c ∈ hashtableTick S ↔
      ((aliveNbrs S c).card = 3 ∨ ((aliveNbrs S c).card = 2 ∧ c ∈ S)) :=
  mem_hashtableTick S c

/-- C2 (refuted: the claim that all three engines agree on every AliveSet is
false): on the vertical blinker sitting on the x = INT64_MAX boundary column
the two counting engines return the empty set, while the quadtree engine
(which never consults `would_overflow`) returns the flipped blinker —
including the coordinate int64Max + 1, which is not representable in the
program's `int64_t` at all. -/
theorem claim_C2_engines_disagree :
    hashtableTick boundaryBlinker = ∅ ∧ sortedTick boundaryBlinker = ∅ ∧
      hashLifeTick boundaryBlinker
        = {(int64Max - 1, (0 : Int)), (int64Max, (0 : Int)),
            (int64Max + 1, (0 : Int))} ∧
      hashLifeTick boundaryBlinker ≠ hashtableTick boundaryBlinker := by
  refine ⟨by decide, by decide, by decide, by decide⟩

/-- C3: for every level-(k+2) quadtree node, `slow_step` returns the node's
center `2^(k+1) × 2^(k+1)` square advanced exactly one generation under the
Life rule (every center cell's full neighbourhood automatically lies inside
the node), with the level-2 base case evaluating the rule directly on the 16
leaves. -/
theorem claim_C3_slow_step_exact {k : Nat} (t : QTree (k + 2)) (x y : Nat)
    (hx : x < 2 ^ (k + 1)) (hy : y < 2 ^ (k + 1)) :
    reify (slowStep t) x y = ruleAt t (2 ^ k + x) (2 ^ k + y) :=
  slowStep_correct t x y hx hy

/-- Witness for C3 at a concrete node: the all-alive level-1 block wrapped in
a dead border is a still life; its slow-step equals the rule pointwise. -/
theorem claim_C3_slow_step_exact_witness :
    (0 : Nat) < 2 ^ 1 ∧
      reify (slowStep (expandT (QTree.node (QTree.leaf true) (QTree.leaf true)
          (QTree.leaf true) (QTree.leaf true)))) 0 0
        = ruleAt (expandT (QTree.node (QTree.leaf true) (QTree.leaf true)
            (QTree.leaf true) (QTree.leaf true))) (2 ^ 0 + 0) (2 ^ 0 + 0) :=
  ⟨by decide, claim_C3_slow_step_exact _ 0 0 (by decide) (by decide)⟩

/-- C4 (refuted as stated): a cell on the INT64_MAX boundary column is NOT
always absent from `advance(S)`: in the 2×2 block touching the boundary the
boundary cell receives count 2 from the two non-boundary cells and survives,
in both counting engines. -/
theorem claim_C4_boundary_survives :
    wouldOverflow int64Max 0 = true ∧
      (int64Max, (0 : Int)) ∈ boundaryBlock ∧
      (int64Max, (0 : Int)) ∈ hashtableTick boundaryBlock ∧
      (int64Max, (0 : Int)) ∈ sortedTick boundaryBlock := by
  refine ⟨by decide, by decide, by decide, by decide⟩

/-- C4 (amended): overflow-risk cells are excluded as neighbour-count
sources, never crash, and follow the ordinary rule on the counts contributed
by their non-overflow-risk neighbours; in particular a boundary cell with
fewer than two alive non-overflow-risk neighbours is absent from the next
generation of both counting engines. -/
theorem claim_C4_boundary_dies_when_isolated (S : Finset Cell) (c : Cell)
    (_hov : wouldOverflow c.1 c.2 = true) (hfew : (aliveNbrs S c).card < 2) :
    c ∉ hashtableTick S ∧ c ∉ sortedTick S := by
  have h1 : ¬((aliveNbrs S c).card = 3 ∨ ((aliveNbrs S c).card = 2 ∧ c ∈ S)) := by
    rintro (h | ⟨h, -⟩) <;> omega
  exact ⟨fun hmem => h1 ((mem_hashtableTick S c).mp hmem),
    fun hmem => h1 ((mem_sortedTick S c).mp hmem)⟩

/-- Witness for the amended C4: an isolated INT64_MAX-boundary cell dies. -/
theorem claim_C4_boundary_dies_when_isolated_witness :
    wouldOverflow int64Max 0 = true ∧
      (aliveNbrs boundaryMaxCell (int64Max, 0)).card < 2 ∧
      ((int64Max, (0 : Int)) ∉ hashtableTick boundaryMaxCell ∧
        (int64Max, (0 : Int)) ∉ sortedTick boundaryMaxCell) :=
  ⟨by decide, by decide,
    claim_C4_boundary_dies_when_isolated boundaryMaxCell (int64Max, 0)
      (by decide) (by decide)⟩

/-- C5 (refuted: the claim that no engine ever performs out-of-range signed
arithmetic is false): for the single alive cell at (INT64_MIN, 0) the
quadtree engine's bucket-index computation evaluates
`cell.x - CHUNK_SIZE + 1`, whose value lies below INT64_MIN — in the C++
`int64_t` arithmetic this is signed overflow, i.e. undefined behaviour. -/
theorem claim_C5_bucket_index_overflows :
    (int64Min, (0 : Int)) ∈ boundaryMinCell ∧ inInt64 int64Min ∧
      ¬inInt64 (chunkNumer int64Min) ∧
      chunkNumer int64Min < int64Min := by
  refine ⟨by decide, by decide, by decide, by decide⟩

/-- C6: node construction through the canonicalizing pool is a function of
the structural key — building the same key twice returns the same node
identity and leaves the pool untouched; a freshly constructed composite
node's population is the sum of its four children's populations (and its
level is the children's level plus one); and a node's memoized one-generation
successor, once stored, is returned as-is by the memo protocol — it is never
recomputed and never diverges, whatever the compute function. -/
theorem claim_C6_pool_canonicalization :
    (∀ (p : Pool) (a b c d : Nat),
        Pool.make (Pool.make p a b c d).1 a b c d = Pool.make p a b c d) ∧
      (∀ (p : Pool) (a b c d : Nat),
        p.canon.lookup (a, b, c, d) = none →
          (((Pool.make p a b c d).1.get (Pool.make p a b c d).2).population
              = (p.get a).population + (p.get b).population
                + (p.get c).population + (p.get d).population ∧
            ((Pool.make p a b c d).1.get (Pool.make p a b c d).2).level
              = (p.get a).level + 1)) ∧
      (∀ (p : Pool) (i r : Nat) (f : Pool → Pool × Nat),
        (p.get i).step1 = some r → Pool.memoStep p i f = (p, r)) := by
  refine ⟨?_, ?_, ?_⟩
  · intro p a b c d
    rcases h : p.canon.lookup (a, b, c, d) with _ | id
    · simp only [Pool.make, h]
      simp [List.lookup]
    · simp [Pool.make, h]
  · intro p a b c d h
    simp only [Pool.make, h]
    constructor
    · simp [Pool.get, getD_concat]
    · simp [Pool.get, getD_concat]
  · intro p i r f h
    simp [Pool.memoStep, h]

/-- Witness for C6 on a concrete pool: making a node over the two initial
leaves, and reading a stored memo. -/
theorem claim_C6_pool_canonicalization_witness :
    (Pool.init.canon.lookup (0, 1, 0, 1) = none ∧
      ((Pool.make Pool.init 0 1 0 1).1.get
          (Pool.make Pool.init 0 1 0 1).2).population = 2) ∧
      ((Pool.init.writeStep 0 7).get 0).step1 = some 7 ∧
      Pool.memoStep (Pool.init.writeStep 0 7) 0 (fun q => (q, 99))
        = (Pool.init.writeStep 0 7, 7) :=
  ⟨⟨rfl, by
      rw [(claim_C6_pool_canonicalization.2.1 Pool.init 0 1 0 1 rfl).1]
      rfl⟩,
    rfl,
    claim_C6_pool_canonicalization.2.2 (Pool.init.writeStep 0 7) 0 7
      (fun q => (q, 99)) rfl⟩

/-- C7 (amended): the engine-name constructor succeeds exactly for the
case-insensitive spellings of "hashtable", "sorted" and "hashlife", and
throws for every other name; the spec's name set
counting / sorting / quadtree does not match the code. -/
theorem claim_C7_engine_names (s : List Char) :
    isOkE (parseEngineType s) = true ↔
      (toLowerStr s = "hashtable".toList ∨ toLowerStr s = "sorted".toList ∨
        toLowerStr s = "hashlife".toList) := by
  unfold parseEngineType
  split_ifs with h1 h2 h3 <;> simp_all [isOkE]

/-- C7 (counterexample to the spec's name set): every name of the spec's
three-element set {counting, sorting, quadtree} is rejected, while the
accepted names are hashtable / sorted / hashlife, case-insensitively. -/
theorem claim_C7_spec_names_rejected :
    isOkE (parseEngineType ("counting".toList)) = false ∧
      isOkE (parseEngineType ("sorting".toList)) = false ∧
      isOkE (parseEngineType ("quadtree".toList)) = false ∧
      isOkE (parseEngineType ("hashtable".toList)) = true ∧
      isOkE (parseEngineType ("SORTED".toList)) = true ∧
      isOkE (parseEngineType ("HashLife".toList)) = true := by
  refine ⟨by decide, by decide, by decide, by decide, by decide, by decide⟩

/-- C8: the blinker flips to its vertical phase in one advance and returns
to the original set in two, in all three engines. -/
theorem claim_C8_blinker_period_two :
    hashtableTick blinkerH = blinkerV ∧ hashtableTick blinkerV = blinkerH ∧
      sortedTick blinkerH = blinkerV ∧ sortedTick blinkerV = blinkerH ∧
      hashLifeTick blinkerH = blinkerV ∧ hashLifeTick blinkerV = blinkerH := by
  refine ⟨by decide, by decide, by decide, by decide, by decide, by decide⟩

/-- C9: every cell produced by the counting engines has at least two distinct
non-overflow-risk parents at Chebyshev distance exactly 1 in the input;
advancing the empty set yields the empty set; and the output is contained in
the union of the 8-neighbourhoods of the non-boundary input cells. -/
theorem claim_C9_output_support :
    (∀ (S : Finset Cell) (c : Cell),
        c ∈ hashtableTick S ∪ sortedTick S →
          ∃ a b, a ∈ S ∧ b ∈ S ∧ a ≠ b ∧
            wouldOverflow a.1 a.2 = false ∧ wouldOverflow b.1 b.2 = false ∧
            chebDist a c = 1 ∧ chebDist b c = 1) ∧
      hashtableTick ∅ = ∅ ∧ sortedTick ∅ = ∅ ∧
      (∀ S : Finset Cell, hashtableTick S ⊆
        (sources S).biUnion (fun a => (neighborList a.1 a.2).toFinset)) := by
  refine ⟨?_, by decide, by decide, ?_⟩
  · intro S c hc
    have hmem : c ∈ hashtableTick S := by
      rcases Finset.mem_union.mp hc with h | h
      · exact h
      · rwa [sortedTick_eq_hashtableTick] at h
    have hcard : 1 < (aliveNbrs S c).card := by
      rcases (mem_hashtableTick S c).mp hmem with h | ⟨h, -⟩ <;> omega
    obtain ⟨a, ha, b, hb, hab⟩ := Finset.one_lt_card.mp hcard
    rw [aliveNbrs, Finset.mem_filter] at ha hb
    exact ⟨a, b, ha.1, hb.1, hab, ha.2.1, hb.2.1, ha.2.2, hb.2.2⟩
  · intro S
    exact Finset.filter_subset _ _

/-- Witness for C9 at the blinker: the birth cell (1, 1) has two distinct
alive parents. -/
theorem claim_C9_output_support_witness :
    ∃ a b, a ∈ blinkerH ∧ b ∈ blinkerH ∧ a ≠ b ∧
      wouldOverflow a.1 a.2 = false ∧ wouldOverflow b.1 b.2 = false ∧
      chebDist a ((1 : Int), (1 : Int)) = 1 ∧
      chebDist b ((1 : Int), (1 : Int)) = 1 :=
  claim_C9_output_support.1 blinkerH ((1 : Int), (1 : Int)) (by decide)

/-- C10: `GameOfLife::run` rejects a negative iteration count before touching
the alive-set (the thrown-flag is set and the state is returned unchanged),
and for every n ≥ 0 it applies the engine tick exactly n times; run 0 is
the identity. -/
theorem claim_C10_run_semantics (f : Finset Cell → Finset Cell) (n : Int)
    (s : Finset Cell) :
    (n < 0 → runGol f n s = (s, true)) ∧
      (0 ≤ n → runGol f n s = (f^[n.toNat] s, false)) ∧
      runGol f 0 s = (s, false) := by
  refine ⟨?_, ?_, ?_⟩
  · intro h
    rw [runGol, if_pos h]
  · intro h
    rw [runGol, if_neg (by omega)]
  · rw [runGol, if_neg (by omega)]
    simp

/-- Witness for C10: a negative count leaves the blinker unchanged and
flags the exception; two iterations apply the tick twice; zero is identity. -/
theorem claim_C10_run_semantics_witness :
    runGol hashtableTick (-1) blinkerH = (blinkerH, true) ∧
      runGol hashtableTick 2 blinkerH
        = (hashtableTick^[(2 : Int).toNat] blinkerH, false) ∧
      runGol hashtableTick 0 blinkerH = (blinkerH, false) :=
  ⟨(claim_C10_run_semantics hashtableTick (-1) blinkerH).1 (by decide),
    (claim_C10_run_semantics hashtableTick 2 blinkerH).2.1 (by decide),
    (claim_C10_run_semantics hashtableTick 0 blinkerH).2.2⟩

end Life
